import Mathlib

/-!
# Verification of the NATO opportunities incremental scraper reconciliation core

This file embeds, as Lean definitions, the reconciliation engine of the
`nato_website_2` repository: the URL-ending change signal
(`backend/utils/url_comparison.py`), the reconciliation classification
(`_reconcile_opportunities`), the amendment detection/application logic,
the unchanged-record bookkeeping, the past-due auto-deactivation sweep
(`_deactivate_past_due_opportunities`), the run orchestration (`scrape_all`),
and the job entry point (`backend/jobs/run_job.py.old`, `main`).

Timestamps are modelled as integers, record collections as lists, and
Python dictionaries as association lists with first-insertion key order and
last-write-wins values (matching CPython dict semantics used by the
reconciler's `{code: link for link in links}` comprehensions).
-/

namespace NatoScraper

/-- `extract_url_ending(url)`: the last URL path segment (the characters after
the final `/`), with trailing slashes stripped first. -/
def extract_url_ending (url : String) : String :=
  let trimmed : List Char := url.data.reverse.dropWhile (fun c => c = '/')
  String.mk ((trimmed.takeWhile (fun c => c ≠ '/')).reverse)

/-- `urls_differ_by_ending(url1, url2)`: true iff the two URL endings differ.
This is the amendment trigger. -/
def urls_differ_by_ending (url1 url2 : String) : Bool :=
  extract_url_ending url1 ≠ extract_url_ending url2

/-- A link discovered on the source website during Phase 1 (discovery). -/
structure Link where
  url : String
  deriving DecidableEq, Repr

/-- The persisted opportunity record (`backend/models/opportunity.py` fields
used by the reconciliation core; the extracted content fields are kept as an
opaque field-name/value mapping, which is all the core sees of them). -/
structure Opportunity where
  opportunity_code : String
  url : String
  bid_closing_date : Option String := none
  bid_closing_date_parsed : Option Int := none
  is_active : Bool := true
  amendment_count : Nat := 0
  has_amendments : Bool := false
  last_amendment_at : Option Int := none
  update_count : Nat := 0
  last_changed_fields : List String := []
  last_checked_at : Option Int := none
  fields : List (String × String) := []
  deriving DecidableEq, Repr

/-- A freshly extracted field set for one opportunity page (output of the
out-of-scope extraction pipeline, consumed opaquely by the core). -/
structure Extracted where
  fields : List (String × String) := []
  bid_closing_date : Option String := none
  bid_closing_date_parsed : Option Int := none
  deriving DecidableEq, Repr

/-- Python-dict assignment `m[k] = v`: overwrite the value if the key is
present (keeping its position), else append the new entry at the end. -/
def insertAssoc {α : Type} : List (String × α) → String → α → List (String × α)
  | [], k, v => [(k, v)]
  | (k', v') :: rest, k, v =>
    if k' = k then (k', v) :: rest else (k', v') :: insertAssoc rest k v

/-- Python-dict lookup `m.get(k)`: first entry with the given key. -/
def lookupAssoc {α : Type} : List (String × α) → String → Option α
  | [], _ => none
  | (k', v) :: rest, k => if k' = k then some v else lookupAssoc rest k

/-- Storage read collaborator `find_by_code(code)`: first record with the
given opportunity code. -/
def findByCode : List Opportunity → String → Option Opportunity
  | [], _ => none
  | o :: rest, c => if o.opportunity_code = c then some o else findByCode rest c

/-- Result of `_reconcile_opportunities`: the four classification groups. -/
structure ReconcileResult where
  newLinks : List Link
  amendments : List (Link × Opportunity)
  unchanged : List Opportunity
  removed : List Opportunity
  deriving Repr

/-- `_reconcile_opportunities(website_links, db)`: build `website_codes`
(code → link) and `existing_by_code` (code → record), then classify each
discovered code as new / amendment / unchanged and each leftover existing
code as removed.  `extract_code` is the opportunity-code extractor supplied
by the (out-of-scope) extractor module. -/
def reconcile (extract_code : String → String) (website_links : List Link)
    (existing : List Opportunity) : ReconcileResult :=
  let website_codes : List (String × Link) :=
    website_links.foldl (fun m l => insertAssoc m (extract_code l.url) l) []
  let existing_by_code : List (String × Opportunity) :=
    existing.foldl (fun m o => insertAssoc m o.opportunity_code o) []
  { newLinks :=
      (website_codes.filter (fun p => (lookupAssoc existing_by_code p.1).isNone)).map (·.2)
    amendments :=
      website_codes.filterMap (fun p =>
        match lookupAssoc existing_by_code p.1 with
        | some opp =>
          if urls_differ_by_ending p.2.url opp.url then some (p.2, opp) else none
        | none => none)
    unchanged :=
      website_codes.filterMap (fun p =>
        match lookupAssoc existing_by_code p.1 with
        | some opp =>
          if urls_differ_by_ending p.2.url opp.url then none else some opp
        | none => none)
    removed :=
      (existing_by_code.filter (fun p => (lookupAssoc website_codes p.1).isNone)).map (·.2) }

/-- The amendment applier: overwrite the record with the fresh extraction and,
when the stored URL differs from the new one (always the case for a pair
classified as amendment), apply the amendment detection logic — increment
`amendment_count`, set `has_amendments`, stamp `last_amendment_at`, and add
`"url"` to `last_changed_fields` if not already present. -/
def applyAmendment (now : Int) (new_url : String) (ext : Extracted)
    (o : Opportunity) : Opportunity :=
  let o1 :=
    if o.url ≠ new_url then
      let changed_fields := o.last_changed_fields
      let changed_fields :=
        if "url" ∈ changed_fields then changed_fields else changed_fields ++ ["url"]
      { o with
        amendment_count := o.amendment_count + 1
        has_amendments := true
        last_amendment_at := some now
        last_changed_fields := changed_fields }
    else o
  { o1 with
    url := new_url
    fields := ext.fields
    bid_closing_date := ext.bid_closing_date
    bid_closing_date_parsed := ext.bid_closing_date_parsed
    update_count := o1.update_count + 1
    last_checked_at := some now }

/-- Bookkeeping for an unchanged record: just update `last_checked_at`,
skipping download and extraction. -/
def processUnchanged (now : Int) (o : Opportunity) : Opportunity :=
  { o with last_checked_at := some now }

/-- Modelled from the spec: creation of a record for a newly discovered link
(the creating code lives in the scraper module, which is absent from the
repository snapshot).  A new record starts with `amendment_count = 0`,
`has_amendments = false`, `update_count = 0`, `is_active = true`, the
discovered URL, and `last_checked_at = now`. -/
def createRecord (code : String) (l : Link) (ext : Extracted) (now : Int) :
    Opportunity :=
  { opportunity_code := code
    url := l.url
    bid_closing_date := ext.bid_closing_date
    bid_closing_date_parsed := ext.bid_closing_date_parsed
    is_active := true
    amendment_count := 0
    has_amendments := false
    last_amendment_at := none
    update_count := 0
    last_changed_fields := []
    last_checked_at := some now
    fields := ext.fields }

/-- First amendment pair whose existing record carries the given code. -/
def findAmendmentFor : List (Link × Opportunity) → String → Option (Link × Opportunity)
  | [], _ => none
  | p :: rest, c =>
    if p.2.opportunity_code = c then some p else findAmendmentFor rest c

/-- Modelled from the spec: the per-record effect of the `PROCESSING` phase
on one existing record — apply the amendment applier when the record was
classified amendment, the timestamp-only update when it was classified
unchanged, and nothing when it vanished. -/
def updateExisting (r : ReconcileResult) (extractE : String → Extracted)
    (now : Int) (o : Opportunity) : Opportunity :=
  match findAmendmentFor r.amendments o.opportunity_code with
  | some (l, _) => applyAmendment now l.url (extractE l.url) o
  | none =>
    if (findByCode r.unchanged o.opportunity_code).isSome then
      processUnchanged now o
    else o

/-- Modelled from the spec: the `PROCESSING` phase of an incremental run
(§4.5) — each `new` link is extracted and created, each `amendment` pair is
applied via the amendment applier, each `unchanged` record gets the
timestamp-only update, and vanished records are left untouched.  The
per-item appliers are the ones from the implementation plan; only their
sequencing over the record set is reconstructed here, the orchestrating
scraper module being absent from the repository snapshot.
`extractE` is the extraction collaborator. -/
def processPhase (extract_code : String → String) (extractE : String → Extracted)
    (now : Int) (links : List Link) (existing : List Opportunity) :
    List Opportunity :=
  let r := reconcile extract_code links existing
  existing.map (updateExisting r extractE now)
    ++ r.newLinks.map (fun l => createRecord (extract_code l.url) l (extractE l.url) now)

/-- `retirementDue`: the `_deactivate_past_due_opportunities` selection
predicate — active, with a parsed closing date that lies in the past. -/
def retirementDue (now : Int) (o : Opportunity) : Bool :=
  o.is_active &&
    (match o.bid_closing_date_parsed with
     | some d => decide (d < now)
     | none => false)

/-- `_deactivate_past_due_opportunities(db)`: set `is_active = False` on every
selected record and return the count deactivated. -/
def deactivate_past_due (now : Int) (recs : List Opportunity) :
    List Opportunity × Nat :=
  let past_due := recs.filter (retirementDue now)
  (recs.map (fun o => if retirementDue now o then { o with is_active := false } else o),
   past_due.length)

/-- Modelled from the spec: full-mode processing (§4.5) — every discovered
link is fetched, extracted and applied (no skip optimization), with identity
matching still by opportunity code; codes absent from the database are
created.  The full-mode body of `scrape_all` is absent from the repository
snapshot. -/
def fullProcess (extract_code : String → String) (extractE : String → Extracted)
    (now : Int) (links : List Link) (existing : List Opportunity) :
    List Opportunity :=
  let website_codes : List (String × Link) :=
    links.foldl (fun m l => insertAssoc m (extract_code l.url) l) []
  let updated := existing.map (fun o =>
    match lookupAssoc website_codes o.opportunity_code with
    | some l => applyAmendment now l.url (extractE l.url) o
    | none => o)
  let r := reconcile extract_code links existing
  updated ++ r.newLinks.map (fun l => createRecord (extract_code l.url) l (extractE l.url) now)

/-- Aggregated result of one scraper run. -/
structure RunResult where
  records : List Opportunity
  new_count : Nat
  amendment_count : Nat
  unchanged_count : Nat
  deactivated_count : Nat
  deriving Repr

/-- `scrape_all(mode)`: discovery is the `links` input; incremental mode
reconciles and processes only the queued items, full mode processes every
link; then the past-due sweep runs once, after all processing, in both modes;
the aggregate counts are the run's deliverable. -/
def scrape_all (extract_code : String → String) (extractE : String → Extracted)
    (now : Int) (mode : String) (links : List Link)
    (existing : List Opportunity) : RunResult :=
  let processed :=
    if mode = "incremental" then
      processPhase extract_code extractE now links existing
    else
      fullProcess extract_code extractE now links existing
  let swept := deactivate_past_due now processed
  let r := reconcile extract_code links existing
  { records := swept.1
    new_count := r.newLinks.length
    amendment_count := r.amendments.length
    unchanged_count := r.unchanged.length
    deactivated_count := swept.2 }

/-- The dictionary returned by `run_job_sync` (`daily_scraper_job.py`): the
core-relevant part is the `success` flag and optional error message. -/
structure JobResult where
  success : Bool
  error : Option String := none
  deriving DecidableEq, Repr

/-- `main()` of `backend/jobs/run_job.py.old`: mode defaults to
`"incremental"`; a supplied argument outside {incremental, full} exits with
code 1 before the job is invoked; otherwise `run_job_sync(mode)` runs and the
process exits 0 on `success` and 1 otherwise.  The returned pair is
(job result if the job was invoked, process exit code); `run_job_sync` is a
parameter because `daily_scraper_job.py` is absent from the repository
snapshot (its contract: returns a result dictionary, never raises). -/
def mainRun (run_job_sync : String → JobResult) (args : List String) :
    Option JobResult × Nat :=
  match args with
  | arg :: _ =>
    if arg = "incremental" ∨ arg = "full" then
      let results := run_job_sync arg
      (some results, if results.success then 0 else 1)
    else
      (none, 1)
  | [] =>
    let results := run_job_sync "incremental"
    (some results, if results.success then 0 else 1)

/-- First link whose extracted code is the given one (helper used to state
closed forms of the reconciler). -/
def findLinkBy (key : Link → String) : List Link → String → Option Link
  | [], _ => none
  | l :: rest, c => if key l = c then some l else findLinkBy key rest c

/-! ## Association-list lemmas -/

theorem insertAssoc_of_fresh {α : Type} (k : String) (v : α) :
    ∀ (m : List (String × α)), (∀ p ∈ m, p.1 ≠ k) →
      insertAssoc m k v = m ++ [(k, v)] := by
  intro m
  induction m with
  | nil => intro _; rfl
  | cons p rest ih =>
    intro h
    obtain ⟨k', v'⟩ := p
    simp only [insertAssoc]
    rw [if_neg (h (k', v') (List.mem_cons_self _ _)), ih]
    · rfl
    · intro q hq
      exact h q (List.mem_cons_of_mem _ hq)

theorem foldl_insertAssoc {α : Type} (key : α → String) :
    ∀ (xs : List α) (m : List (String × α)),
      (xs.map key).Nodup → (∀ x ∈ xs, ∀ p ∈ m, p.1 ≠ key x) →
      xs.foldl (fun acc x => insertAssoc acc (key x) x) m
        = m ++ xs.map (fun x => (key x, x)) := by
  intro xs
  induction xs with
  | nil => intro m _ _; simp
  | cons a as ih =>
    intro m hnd hfresh
    simp only [List.map_cons, List.nodup_cons] at hnd
    simp only [List.foldl_cons]
    rw [insertAssoc_of_fresh (key a) a m
        (fun p hp => hfresh a (List.mem_cons_self _ _) p hp)]
    rw [ih (m ++ [(key a, a)]) hnd.2]
    · simp
    · intro x hx p hp
      rcases List.mem_append.mp hp with hm | hone
      · exact hfresh x (List.mem_cons_of_mem _ hx) p hm
      · have hp1 : p = (key a, a) := by simpa using hone
        subst hp1
        intro hcontra
        have hkey : key a = key x := by simpa using hcontra
        exact hnd.1 (by rw [hkey]; exact List.mem_map_of_mem key hx)

theorem lookupAssoc_opportunity (c : String) :
    ∀ existing : List Opportunity,
      lookupAssoc (existing.map fun o => (o.opportunity_code, o)) c
        = findByCode existing c := by
  intro existing
  induction existing with
  | nil => rfl
  | cons o rest ih =>
    simp only [List.map_cons, lookupAssoc, findByCode]
    by_cases h : o.opportunity_code = c
    · simp [h]
    · simp [h, ih]

theorem lookupAssoc_link (key : Link → String) (c : String) :
    ∀ links : List Link,
      lookupAssoc (links.map fun l => (key l, l)) c = findLinkBy key links c := by
  intro links
  induction links with
  | nil => rfl
  | cons l rest ih =>
    simp only [List.map_cons, lookupAssoc, findLinkBy]
    by_cases h : key l = c
    · simp [h]
    · simp [h, ih]

/-! ## `findByCode`, `findLinkBy`, `findAmendmentFor` lemmas -/

theorem findByCode_eq_none_iff (c : String) :
    ∀ recs : List Opportunity,
      findByCode recs c = none ↔ ∀ o ∈ recs, o.opportunity_code ≠ c := by
  intro recs
  induction recs with
  | nil => simp [findByCode]
  | cons o rest ih =>
    simp only [findByCode]
    by_cases h : o.opportunity_code = c
    · simp [h]
    · simp [h, ih]

theorem findByCode_some (c : String) (o : Opportunity) :
    ∀ recs : List Opportunity,
      findByCode recs c = some o → o ∈ recs ∧ o.opportunity_code = c := by
  intro recs
  induction recs with
  | nil => intro h; simp [findByCode] at h
  | cons a rest ih =>
    intro h
    simp only [findByCode] at h
    by_cases ha : a.opportunity_code = c
    · rw [if_pos ha] at h
      obtain rfl : a = o := by simpa using h
      exact ⟨List.mem_cons_self _ _, ha⟩
    · rw [if_neg ha] at h
      obtain ⟨hm, hc⟩ := ih h
      exact ⟨List.mem_cons_of_mem _ hm, hc⟩

theorem findByCode_isSome_of_mem (c : String) (o : Opportunity) :
    ∀ recs : List Opportunity, o ∈ recs → o.opportunity_code = c →
      (findByCode recs c).isSome := by
  intro recs
  induction recs with
  | nil => intro h; simp at h
  | cons a rest ih =>
    intro hmem hc
    simp only [findByCode]
    by_cases ha : a.opportunity_code = c
    · simp [ha]
    · rw [if_neg ha]
      rcases List.mem_cons.mp hmem with rfl | hm
      · exact absurd hc ha
      · exact ih hm hc

theorem findByCode_of_mem_nodup (c : String) (o : Opportunity) :
    ∀ recs : List Opportunity, o ∈ recs → o.opportunity_code = c →
      (recs.map Opportunity.opportunity_code).Nodup →
      findByCode recs c = some o := by
  intro recs
  induction recs with
  | nil => intro h; simp at h
  | cons a rest ih =>
    intro hmem hc hnd
    simp only [List.map_cons, List.nodup_cons] at hnd
    simp only [findByCode]
    rcases List.mem_cons.mp hmem with rfl | hm
    · simp [hc]
    · by_cases ha : a.opportunity_code = c
      · exfalso
        apply hnd.1
        rw [ha, ← hc]
        exact List.mem_map_of_mem _ hm
      · rw [if_neg ha]
        exact ih hm hc hnd.2

theorem findByCode_append (c : String) (b : List Opportunity) :
    ∀ a : List Opportunity,
      findByCode (a ++ b) c
        = match findByCode a c with
          | some o => some o
          | none => findByCode b c := by
  intro a
  induction a with
  | nil => simp [findByCode]
  | cons x rest ih =>
    simp only [List.cons_append, findByCode]
    by_cases hx : x.opportunity_code = c
    · simp [hx]
    · simp [hx, ih]

theorem findByCode_map_update (c : String) (g : Opportunity → Opportunity)
    (hg : ∀ o, (g o).opportunity_code = o.opportunity_code) :
    ∀ recs : List Opportunity,
      findByCode (recs.map g) c = (findByCode recs c).map g := by
  intro recs
  induction recs with
  | nil => rfl
  | cons o rest ih =>
    simp only [List.map_cons, findByCode, hg]
    by_cases h : o.opportunity_code = c
    · simp [h]
    · simp [h, ih]

theorem findByCode_map_create (c : String) (key : Link → String)
    (g : Link → Opportunity) (hg : ∀ l, (g l).opportunity_code = key l) :
    ∀ links : List Link,
      findByCode (links.map g) c = (findLinkBy key links c).map g := by
  intro links
  induction links with
  | nil => rfl
  | cons l rest ih =>
    simp only [List.map_cons, findByCode, findLinkBy, hg]
    by_cases h : key l = c
    · simp [h]
    · simp [h, ih]

theorem findLinkBy_eq_none_iff (key : Link → String) (c : String) :
    ∀ links : List Link,
      findLinkBy key links c = none ↔ ∀ l ∈ links, key l ≠ c := by
  intro links
  induction links with
  | nil => simp [findLinkBy]
  | cons l rest ih =>
    simp only [findLinkBy]
    by_cases h : key l = c
    · simp [h]
    · simp [h, ih]

theorem findLinkBy_some (key : Link → String) (c : String) (l : Link) :
    ∀ links : List Link,
      findLinkBy key links c = some l → l ∈ links ∧ key l = c := by
  intro links
  induction links with
  | nil => intro h; simp [findLinkBy] at h
  | cons a rest ih =>
    intro h
    simp only [findLinkBy] at h
    by_cases ha : key a = c
    · rw [if_pos ha] at h
      obtain rfl : a = l := by simpa using h
      exact ⟨List.mem_cons_self _ _, ha⟩
    · rw [if_neg ha] at h
      obtain ⟨hm, hc⟩ := ih h
      exact ⟨List.mem_cons_of_mem _ hm, hc⟩

theorem findLinkBy_of_mem_nodup (key : Link → String) (c : String) (l : Link) :
    ∀ links : List Link, l ∈ links → key l = c →
      (links.map key).Nodup → findLinkBy key links c = some l := by
  intro links
  induction links with
  | nil => intro h; simp at h
  | cons a rest ih =>
    intro hmem hc hnd
    simp only [List.map_cons, List.nodup_cons] at hnd
    simp only [findLinkBy]
    rcases List.mem_cons.mp hmem with rfl | hm
    · simp [hc]
    · by_cases ha : key a = c
      · exfalso
        apply hnd.1
        rw [ha, ← hc]
        exact List.mem_map_of_mem _ hm
      · rw [if_neg ha]
        exact ih hm hc hnd.2

theorem findAmendmentFor_eq_none_iff (c : String) :
    ∀ amds : List (Link × Opportunity),
      findAmendmentFor amds c = none ↔ ∀ p ∈ amds, p.2.opportunity_code ≠ c := by
  intro amds
  induction amds with
  | nil => simp [findAmendmentFor]
  | cons p rest ih =>
    simp only [findAmendmentFor]
    by_cases h : p.2.opportunity_code = c
    · simp [h]
    · simp [h, ih]

theorem findAmendmentFor_of_mem_unique (c : String) (p : Link × Opportunity) :
    ∀ amds : List (Link × Opportunity), p ∈ amds → p.2.opportunity_code = c →
      (∀ q ∈ amds, q.2.opportunity_code = c → q = p) →
      findAmendmentFor amds c = some p := by
  intro amds
  induction amds with
  | nil => intro h; simp at h
  | cons a rest ih =>
    intro hmem hc huniq
    simp only [findAmendmentFor]
    by_cases ha : a.2.opportunity_code = c
    · rw [if_pos ha, huniq a (List.mem_cons_self _ _) ha]
    · rw [if_neg ha]
      rcases List.mem_cons.mp hmem with rfl | hm
      · exact absurd hc ha
      · exact ih hm hc (fun q hq hqc => huniq q (List.mem_cons_of_mem _ hq) hqc)

/-! ## Keyed filter/filterMap combinators -/

theorem filter_keyed {α : Type} (key : α → String) (q : String → Bool) :
    ∀ xs : List α,
      ((xs.map fun x => (key x, x)).filter fun p => q p.1).map (fun p => p.2)
        = xs.filter fun x => q (key x) := by
  intro xs
  induction xs with
  | nil => rfl
  | cons a as ih =>
    simp only [List.map_cons, List.filter_cons]
    cases h : q (key a) <;> simp [h, ih]

theorem filterMap_keyed {α β : Type} (key : α → String) (F : String → α → Option β) :
    ∀ xs : List α,
      (xs.map fun x => (key x, x)).filterMap (fun p => F p.1 p.2)
        = xs.filterMap fun x => F (key x) x := by
  intro xs
  induction xs with
  | nil => rfl
  | cons a as ih =>
    simp only [List.map_cons, List.filterMap_cons]
    cases h : F (key a) a <;> simp [h, ih]

/-! ## Closed forms of the reconciler under duplicate-free codes -/

theorem reconcile_newLinks (extract_code : String → String) (links : List Link)
    (existing : List Opportunity)
    (hW : (links.map fun l => extract_code l.url).Nodup)
    (hE : (existing.map Opportunity.opportunity_code).Nodup) :
    (reconcile extract_code links existing).newLinks
      = links.filter fun l => (findByCode existing (extract_code l.url)).isNone := by
  simp only [reconcile]
  rw [foldl_insertAssoc (fun l => extract_code l.url) links [] hW (by simp),
      foldl_insertAssoc Opportunity.opportunity_code existing [] hE (by simp)]
  simp only [List.nil_append, lookupAssoc_opportunity]
  exact filter_keyed (fun l => extract_code l.url)
    (fun c => (findByCode existing c).isNone) links

theorem reconcile_amendments (extract_code : String → String) (links : List Link)
    (existing : List Opportunity)
    (hW : (links.map fun l => extract_code l.url).Nodup)
    (hE : (existing.map Opportunity.opportunity_code).Nodup) :
    (reconcile extract_code links existing).amendments
      = links.filterMap fun l =>
          match findByCode existing (extract_code l.url) with
          | some o => if urls_differ_by_ending l.url o.url then some (l, o) else none
          | none => none := by
  simp only [reconcile]
  rw [foldl_insertAssoc (fun l => extract_code l.url) links [] hW (by simp),
      foldl_insertAssoc Opportunity.opportunity_code existing [] hE (by simp)]
  simp only [List.nil_append, lookupAssoc_opportunity]
  exact filterMap_keyed (fun l => extract_code l.url)
    (fun c l =>
      match findByCode existing c with
      | some o => if urls_differ_by_ending l.url o.url then some (l, o) else none
      | none => none) links

theorem reconcile_unchanged (extract_code : String → String) (links : List Link)
    (existing : List Opportunity)
    (hW : (links.map fun l => extract_code l.url).Nodup)
    (hE : (existing.map Opportunity.opportunity_code).Nodup) :
    (reconcile extract_code links existing).unchanged
      = links.filterMap fun l =>
          match findByCode existing (extract_code l.url) with
          | some o => if urls_differ_by_ending l.url o.url then none else some o
          | none => none := by
  simp only [reconcile]
  rw [foldl_insertAssoc (fun l => extract_code l.url) links [] hW (by simp),
      foldl_insertAssoc Opportunity.opportunity_code existing [] hE (by simp)]
  simp only [List.nil_append, lookupAssoc_opportunity]
  exact filterMap_keyed (fun l => extract_code l.url)
    (fun c l =>
      match findByCode existing c with
      | some o => if urls_differ_by_ending l.url o.url then none else some o
      | none => none) links

theorem reconcile_removed (extract_code : String → String) (links : List Link)
    (existing : List Opportunity)
    (hW : (links.map fun l => extract_code l.url).Nodup)
    (hE : (existing.map Opportunity.opportunity_code).Nodup) :
    (reconcile extract_code links existing).removed
      = existing.filter fun o =>
          (findLinkBy (fun l => extract_code l.url) links o.opportunity_code).isNone := by
  simp only [reconcile]
  rw [foldl_insertAssoc (fun l => extract_code l.url) links [] hW (by simp),
      foldl_insertAssoc Opportunity.opportunity_code existing [] hE (by simp)]
  simp only [List.nil_append, lookupAssoc_link]
  exact filter_keyed Opportunity.opportunity_code
    (fun c => (findLinkBy (fun l => extract_code l.url) links c).isNone) existing

/-! ## Field-preservation lemmas for the per-item appliers -/

theorem applyAmendment_opportunity_code (now : Int) (new_url : String)
    (ext : Extracted) (o : Opportunity) :
    (applyAmendment now new_url ext o).opportunity_code = o.opportunity_code := by
  by_cases h : o.url = new_url <;> simp [applyAmendment, h]

theorem applyAmendment_url (now : Int) (new_url : String) (ext : Extracted)
    (o : Opportunity) : (applyAmendment now new_url ext o).url = new_url := by
  by_cases h : o.url = new_url <;> simp [applyAmendment, h]

theorem processUnchanged_opportunity_code (now : Int) (o : Opportunity) :
    (processUnchanged now o).opportunity_code = o.opportunity_code := rfl

theorem processUnchanged_url (now : Int) (o : Opportunity) :
    (processUnchanged now o).url = o.url := rfl

theorem createRecord_opportunity_code (code : String) (l : Link)
    (ext : Extracted) (now : Int) :
    (createRecord code l ext now).opportunity_code = code := rfl

theorem createRecord_url (code : String) (l : Link) (ext : Extracted)
    (now : Int) : (createRecord code l ext now).url = l.url := rfl

theorem updateExisting_opportunity_code (r : ReconcileResult)
    (extractE : String → Extracted) (now : Int) (o : Opportunity) :
    (updateExisting r extractE now o).opportunity_code = o.opportunity_code := by
  unfold updateExisting
  cases h : findAmendmentFor r.amendments o.opportunity_code with
  | some p => exact applyAmendment_opportunity_code _ _ _ _
  | none =>
    by_cases hu : (findByCode r.unchanged o.opportunity_code).isSome <;>
      simp [hu, processUnchanged]

/-! ## Code inventory of the processing phase -/

theorem processPhase_codes (extract_code : String → String)
    (extractE : String → Extracted) (now : Int) (links : List Link)
    (existing : List Opportunity) :
    (processPhase extract_code extractE now links existing).map
        Opportunity.opportunity_code
      = existing.map Opportunity.opportunity_code
        ++ (reconcile extract_code links existing).newLinks.map
            (fun l => extract_code l.url) := by
  simp only [processPhase, List.map_append, List.map_map]
  congr 1
  exact List.map_congr_left fun o _ => updateExisting_opportunity_code _ _ _ o

theorem processPhase_codes_nodup (extract_code : String → String)
    (extractE : String → Extracted) (now : Int) (links : List Link)
    (existing : List Opportunity)
    (hW : (links.map fun l => extract_code l.url).Nodup)
    (hE : (existing.map Opportunity.opportunity_code).Nodup) :
    ((processPhase extract_code extractE now links existing).map
        Opportunity.opportunity_code).Nodup := by
  rw [processPhase_codes]
  refine List.Nodup.append hE ?_ ?_
  · rw [reconcile_newLinks extract_code links existing hW hE]
    exact List.Nodup.sublist
      (List.Sublist.map _ (List.filter_sublist links)) hW
  · intro c hc hc2
    rw [reconcile_newLinks extract_code links existing hW hE] at hc2
    obtain ⟨l, hl, hlc⟩ := List.mem_map.mp hc2
    obtain ⟨-, hpred⟩ := List.mem_filter.mp hl
    obtain ⟨o, ho, hoc⟩ := List.mem_map.mp hc
    rw [Option.isNone_iff_eq_none, findByCode_eq_none_iff] at hpred
    exact hpred o ho (by rw [hoc, ← hlc])

/-! ## The URL-ending change signal -/

theorem urls_differ_false_iff (u v : String) :
    urls_differ_by_ending u v = false ↔ extract_url_ending u = extract_url_ending v := by
  simp [urls_differ_by_ending]

theorem ne_of_urls_differ (u v : String)
    (h : urls_differ_by_ending u v = true) : u ≠ v := by
  intro he
  rw [he] at h
  simp [urls_differ_by_ending] at h

/-! ## Membership characterizations of the four groups -/

theorem mem_newLinks_iff (extract_code : String → String) (links : List Link)
    (existing : List Opportunity)
    (hW : (links.map fun l => extract_code l.url).Nodup)
    (hE : (existing.map Opportunity.opportunity_code).Nodup) (l : Link) :
    l ∈ (reconcile extract_code links existing).newLinks
      ↔ l ∈ links ∧ findByCode existing (extract_code l.url) = none := by
  rw [reconcile_newLinks extract_code links existing hW hE, List.mem_filter,
    Option.isNone_iff_eq_none]

theorem mem_amendments_iff (extract_code : String → String) (links : List Link)
    (existing : List Opportunity)
    (hW : (links.map fun l => extract_code l.url).Nodup)
    (hE : (existing.map Opportunity.opportunity_code).Nodup)
    (l : Link) (o : Opportunity) :
    (l, o) ∈ (reconcile extract_code links existing).amendments
      ↔ l ∈ links ∧ findByCode existing (extract_code l.url) = some o
          ∧ urls_differ_by_ending l.url o.url = true := by
  rw [reconcile_amendments extract_code links existing hW hE, List.mem_filterMap]
  constructor
  · rintro ⟨a, ha, hfa⟩
    cases hf : findByCode existing (extract_code a.url) with
    | none => simp [hf] at hfa
    | some o' =>
      cases hd : urls_differ_by_ending a.url o'.url with
      | false => simp [hf, hd] at hfa
      | true =>
        simp only [hf, hd, if_true] at hfa
        have h1 : a = l ∧ o' = o := by simpa using hfa
        obtain ⟨rfl, rfl⟩ := h1
        exact ⟨ha, hf, hd⟩
  · rintro ⟨hl, hf, hd⟩
    exact ⟨l, hl, by simp [hf, hd]⟩

theorem mem_unchanged_iff (extract_code : String → String) (links : List Link)
    (existing : List Opportunity)
    (hW : (links.map fun l => extract_code l.url).Nodup)
    (hE : (existing.map Opportunity.opportunity_code).Nodup) (o : Opportunity) :
    o ∈ (reconcile extract_code links existing).unchanged
      ↔ ∃ l ∈ links, findByCode existing (extract_code l.url) = some o
          ∧ urls_differ_by_ending l.url o.url = false := by
  rw [reconcile_unchanged extract_code links existing hW hE, List.mem_filterMap]
  constructor
  · rintro ⟨a, ha, hfa⟩
    cases hf : findByCode existing (extract_code a.url) with
    | none => simp [hf] at hfa
    | some o' =>
      cases hd : urls_differ_by_ending a.url o'.url with
      | true => simp [hf, hd] at hfa
      | false =>
        simp only [hf, hd] at hfa
        have h1 : o' = o := by simpa using hfa
        subst h1
        exact ⟨a, ha, hf, hd⟩
  · rintro ⟨l, hl, hf, hd⟩
    exact ⟨l, hl, by simp [hf, hd]⟩

theorem mem_removed_iff (extract_code : String → String) (links : List Link)
    (existing : List Opportunity)
    (hW : (links.map fun l => extract_code l.url).Nodup)
    (hE : (existing.map Opportunity.opportunity_code).Nodup) (o : Opportunity) :
    o ∈ (reconcile extract_code links existing).removed
      ↔ o ∈ existing ∧ ∀ l ∈ links, extract_code l.url ≠ o.opportunity_code := by
  rw [reconcile_removed extract_code links existing hW hE, List.mem_filter,
    Option.isNone_iff_eq_none, findLinkBy_eq_none_iff]

/-! ## Behavior of the processing phase on each classification -/

theorem newLinks_codes_nodup (extract_code : String → String) (links : List Link)
    (existing : List Opportunity)
    (hW : (links.map fun l => extract_code l.url).Nodup)
    (hE : (existing.map Opportunity.opportunity_code).Nodup) :
    ((reconcile extract_code links existing).newLinks.map
        fun l => extract_code l.url).Nodup := by
  rw [reconcile_newLinks extract_code links existing hW hE]
  exact List.Nodup.sublist (List.Sublist.map _ (List.filter_sublist links)) hW

theorem updateExisting_of_amendment (extract_code : String → String)
    (extractE : String → Extracted) (now : Int) (links : List Link)
    (existing : List Opportunity)
    (hW : (links.map fun l => extract_code l.url).Nodup)
    (hE : (existing.map Opportunity.opportunity_code).Nodup)
    (l : Link) (o : Opportunity) (hl : l ∈ links)
    (hf : findByCode existing (extract_code l.url) = some o)
    (hd : urls_differ_by_ending l.url o.url = true) :
    updateExisting (reconcile extract_code links existing) extractE now o
      = applyAmendment now l.url (extractE l.url) o := by
  have hoc : o.opportunity_code = extract_code l.url := (findByCode_some _ _ _ hf).2
  have hmem : (l, o) ∈ (reconcile extract_code links existing).amendments :=
    (mem_amendments_iff extract_code links existing hW hE l o).mpr ⟨hl, hf, hd⟩
  have huniq : ∀ q ∈ (reconcile extract_code links existing).amendments,
      q.2.opportunity_code = o.opportunity_code → q = (l, o) := by
    rintro ⟨l', o'⟩ hq hqc
    obtain ⟨hl', hf', _⟩ :=
      (mem_amendments_iff extract_code links existing hW hE l' o').mp hq
    have ho'c : o'.opportunity_code = extract_code l'.url :=
      (findByCode_some _ _ _ hf').2
    have hkeys : extract_code l'.url = extract_code l.url := by
      rw [← ho'c, hqc, hoc]
    have : l' = l := List.inj_on_of_nodup_map hW hl' hl hkeys
    subst this
    have : o' = o := by rw [hf] at hf'; exact (Option.some.inj hf').symm
    subst this
    rfl
  have hfind : findAmendmentFor (reconcile extract_code links existing).amendments
      o.opportunity_code = some (l, o) :=
    findAmendmentFor_of_mem_unique _ _ _ hmem rfl huniq
  unfold updateExisting
  rw [hfind]

theorem updateExisting_of_unchanged (extract_code : String → String)
    (extractE : String → Extracted) (now : Int) (links : List Link)
    (existing : List Opportunity)
    (hW : (links.map fun l => extract_code l.url).Nodup)
    (hE : (existing.map Opportunity.opportunity_code).Nodup)
    (l : Link) (o : Opportunity) (hl : l ∈ links)
    (hf : findByCode existing (extract_code l.url) = some o)
    (hd : urls_differ_by_ending l.url o.url = false) :
    updateExisting (reconcile extract_code links existing) extractE now o
      = processUnchanged now o := by
  have hoc : o.opportunity_code = extract_code l.url := (findByCode_some _ _ _ hf).2
  have hnone : findAmendmentFor (reconcile extract_code links existing).amendments
      o.opportunity_code = none := by
    rw [findAmendmentFor_eq_none_iff]
    rintro ⟨l', o'⟩ hq hqc
    obtain ⟨hl', hf', hd'⟩ :=
      (mem_amendments_iff extract_code links existing hW hE l' o').mp hq
    have ho'c : o'.opportunity_code = extract_code l'.url :=
      (findByCode_some _ _ _ hf').2
    have hkeys : extract_code l'.url = extract_code l.url := by
      rw [← ho'c, hqc, hoc]
    have : l' = l := List.inj_on_of_nodup_map hW hl' hl hkeys
    subst this
    have : o' = o := by rw [hf] at hf'; exact (Option.some.inj hf').symm
    subst this
    rw [hd'] at hd
    exact Bool.true_eq_false.mp hd
  have hmem : o ∈ (reconcile extract_code links existing).unchanged :=
    (mem_unchanged_iff extract_code links existing hW hE o).mpr ⟨l, hl, hf, hd⟩
  have hsome : (findByCode (reconcile extract_code links existing).unchanged
      o.opportunity_code).isSome :=
    findByCode_isSome_of_mem _ _ _ hmem rfl
  unfold updateExisting
  rw [hnone]
  simp [hsome]

theorem updateExisting_of_vanished (extract_code : String → String)
    (extractE : String → Extracted) (now : Int) (links : List Link)
    (existing : List Opportunity)
    (hW : (links.map fun l => extract_code l.url).Nodup)
    (hE : (existing.map Opportunity.opportunity_code).Nodup)
    (o : Opportunity)
    (hvan : ∀ l ∈ links, extract_code l.url ≠ o.opportunity_code) :
    updateExisting (reconcile extract_code links existing) extractE now o = o := by
  have hnone : findAmendmentFor (reconcile extract_code links existing).amendments
      o.opportunity_code = none := by
    rw [findAmendmentFor_eq_none_iff]
    rintro ⟨l', o'⟩ hq hqc
    obtain ⟨hl', hf', _⟩ :=
      (mem_amendments_iff extract_code links existing hW hE l' o').mp hq
    have ho'c : o'.opportunity_code = extract_code l'.url :=
      (findByCode_some _ _ _ hf').2
    exact hvan l' hl' (by rw [← ho'c, hqc])
  have hunone : findByCode (reconcile extract_code links existing).unchanged
      o.opportunity_code = none := by
    rw [findByCode_eq_none_iff]
    intro u hu huc
    obtain ⟨l', hl', hf', _⟩ :=
      (mem_unchanged_iff extract_code links existing hW hE u).mp hu
    have huc' : u.opportunity_code = extract_code l'.url :=
      (findByCode_some _ _ _ hf').2
    exact hvan l' hl' (by rw [← huc', huc])
  unfold updateExisting
  rw [hnone, hunone]
  simp

/-- Every link discovered on the current pass has, after the processing
phase, a record with its code whose stored URL ending equals the discovered
URL's ending. -/
theorem processPhase_rediscovery (extract_code : String → String)
    (extractE : String → Extracted) (now : Int) (links : List Link)
    (existing : List Opportunity)
    (hW : (links.map fun l => extract_code l.url).Nodup)
    (hE : (existing.map Opportunity.opportunity_code).Nodup)
    (l : Link) (hl : l ∈ links) :
    ∃ o', findByCode (processPhase extract_code extractE now links existing)
            (extract_code l.url) = some o'
        ∧ extract_url_ending o'.url = extract_url_ending l.url := by
  simp only [processPhase]
  rw [findByCode_append,
    findByCode_map_update _ _ (updateExisting_opportunity_code _ extractE now)]
  cases hf : findByCode existing (extract_code l.url) with
  | some o0 =>
    refine ⟨updateExisting (reconcile extract_code links existing) extractE now o0,
      by simp, ?_⟩
    cases hd : urls_differ_by_ending l.url o0.url with
    | true =>
      rw [updateExisting_of_amendment extract_code extractE now links existing
        hW hE l o0 hl hf hd, applyAmendment_url]
    | false =>
      rw [updateExisting_of_unchanged extract_code extractE now links existing
        hW hE l o0 hl hf hd, processUnchanged_url]
      exact ((urls_differ_false_iff _ _).mp hd).symm
  | none =>
    have hmem : l ∈ (reconcile extract_code links existing).newLinks :=
      (mem_newLinks_iff extract_code links existing hW hE l).mpr ⟨hl, hf⟩
    have hcreate : findByCode
        ((reconcile extract_code links existing).newLinks.map
          (fun l' => createRecord (extract_code l'.url) l' (extractE l'.url) now))
        (extract_code l.url)
        = some (createRecord (extract_code l.url) l (extractE l.url) now) := by
      rw [findByCode_map_create _ (fun l' => extract_code l'.url) _ (fun l' => rfl)]
      rw [findLinkBy_of_mem_nodup _ _ _ _ hmem rfl
        (newLinks_codes_nodup extract_code links existing hW hE)]
      rfl
    refine ⟨createRecord (extract_code l.url) l (extractE l.url) now, ?_, rfl⟩
    simp [hcreate]

/-- Any pair in the amendments group has differing URL endings (holds for
arbitrary inputs, duplicate codes included). -/
theorem amendments_differ (extract_code : String → String) (links : List Link)
    (existing : List Opportunity) (l : Link) (o : Opportunity)
    (hmem : (l, o) ∈ (reconcile extract_code links existing).amendments) :
    urls_differ_by_ending l.url o.url = true := by
  simp only [reconcile] at hmem
  rw [List.mem_filterMap] at hmem
  obtain ⟨p, _, hfp⟩ := hmem
  cases hf : lookupAssoc
      (existing.foldl (fun m o => insertAssoc m o.opportunity_code o) []) p.1 with
  | none => simp [hf] at hfp
  | some o' =>
    cases hd : urls_differ_by_ending p.2.url o'.url with
    | false => simp [hf, hd] at hfp
    | true =>
      simp only [hf, hd, if_true] at hfp
      have h1 : p.2 = l ∧ o' = o := by simpa using hfp
      obtain ⟨h2, h3⟩ := h1
      rw [← h2, ← h3]
      exact hd

/-- C1: For every reconciliation pass over duplicate-free code sets, each
discovered link and each existing record is assigned to exactly one of the
four groups {new, amendment, unchanged, vanished}: a discovered code with no
existing record is new; a discovered code matching an existing record is an
amendment exactly when `urls_differ_by_ending` holds and unchanged otherwise;
an existing record whose code is absent from the discovery set is vanished;
the groups are pairwise disjoint and together cover every discovered link and
every existing record. -/
theorem c1_reconcile_partition (extract_code : String → String)
    (links : List Link) (existing : List Opportunity)
    (hW : (links.map fun l => extract_code l.url).Nodup)
    (hE : (existing.map Opportunity.opportunity_code).Nodup) :
    (∀ l ∈ links,
      (l ∈ (reconcile extract_code links existing).newLinks
        ∨ (∃ o, (l, o) ∈ (reconcile extract_code links existing).amendments)
        ∨ (∃ o, o ∈ (reconcile extract_code links existing).unchanged
            ∧ o.opportunity_code = extract_code l.url))
      ∧ ¬(l ∈ (reconcile extract_code links existing).newLinks
          ∧ ∃ o, (l, o) ∈ (reconcile extract_code links existing).amendments)
      ∧ ¬(l ∈ (reconcile extract_code links existing).newLinks
          ∧ ∃ o, o ∈ (reconcile extract_code links existing).unchanged
              ∧ o.opportunity_code = extract_code l.url)
      ∧ ¬((∃ o, (l, o) ∈ (reconcile extract_code links existing).amendments)
          ∧ ∃ o, o ∈ (reconcile extract_code links existing).unchanged
              ∧ o.opportunity_code = extract_code l.url))
    ∧ (∀ o ∈ existing,
      ((∃ l, (l, o) ∈ (reconcile extract_code links existing).amendments)
        ∨ o ∈ (reconcile extract_code links existing).unchanged
        ∨ o ∈ (reconcile extract_code links existing).removed)
      ∧ ¬((∃ l, (l, o) ∈ (reconcile extract_code links existing).amendments)
          ∧ o ∈ (reconcile extract_code links existing).unchanged)
      ∧ ¬((∃ l, (l, o) ∈ (reconcile extract_code links existing).amendments)
          ∧ o ∈ (reconcile extract_code links existing).removed)
      ∧ ¬(o ∈ (reconcile extract_code links existing).unchanged
          ∧ o ∈ (reconcile extract_code links existing).removed))
    ∧ (∀ l, l ∈ (reconcile extract_code links existing).newLinks
        ↔ l ∈ links ∧ findByCode existing (extract_code l.url) = none)
    ∧ (∀ l o, (l, o) ∈ (reconcile extract_code links existing).amendments
        ↔ l ∈ links ∧ findByCode existing (extract_code l.url) = some o
            ∧ urls_differ_by_ending l.url o.url = true)
    ∧ (∀ o, o ∈ (reconcile extract_code links existing).unchanged
        ↔ ∃ l ∈ links, findByCode existing (extract_code l.url) = some o
            ∧ urls_differ_by_ending l.url o.url = false)
    ∧ (∀ o, o ∈ (reconcile extract_code links existing).removed
        ↔ o ∈ existing
            ∧ ∀ l ∈ links, extract_code l.url ≠ o.opportunity_code) := by
  refine ⟨?_, ?_, fun l => mem_newLinks_iff extract_code links existing hW hE l,
    fun l o => mem_amendments_iff extract_code links existing hW hE l o,
    fun o => mem_unchanged_iff extract_code links existing hW hE o,
    fun o => mem_removed_iff extract_code links existing hW hE o⟩
  · -- link side
    intro l hl
    cases hf : findByCode existing (extract_code l.url) with
    | none =>
      refine ⟨Or.inl ((mem_newLinks_iff extract_code links existing hW hE l).mpr
        ⟨hl, hf⟩), ?_, ?_, ?_⟩
      · rintro ⟨-, o, hao⟩
        obtain ⟨-, hf', -⟩ :=
          (mem_amendments_iff extract_code links existing hW hE l o).mp hao
        rw [hf] at hf'
        exact Option.noConfusion hf'
      · rintro ⟨-, o, hu, hc⟩
        obtain ⟨l', hl', hf', -⟩ :=
          (mem_unchanged_iff extract_code links existing hW hE o).mp hu
        have ho'c : o.opportunity_code = extract_code l'.url :=
          (findByCode_some _ _ _ hf').2
        have : l' = l := List.inj_on_of_nodup_map hW hl' hl (by rw [← ho'c, hc])
        subst this
        rw [hf] at hf'
        exact Option.noConfusion hf'
      · rintro ⟨⟨o, hao⟩, -⟩
        obtain ⟨-, hf', -⟩ :=
          (mem_amendments_iff extract_code links existing hW hE l o).mp hao
        rw [hf] at hf'
        exact Option.noConfusion hf'
    | some o0 =>
      cases hd : urls_differ_by_ending l.url o0.url with
      | true =>
        refine ⟨Or.inr (Or.inl ⟨o0,
          (mem_amendments_iff extract_code links existing hW hE l o0).mpr
            ⟨hl, hf, hd⟩⟩), ?_, ?_, ?_⟩
        · rintro ⟨hn, -⟩
          obtain ⟨-, hf'⟩ :=
            (mem_newLinks_iff extract_code links existing hW hE l).mp hn
          rw [hf] at hf'
          exact Option.noConfusion hf'
        · rintro ⟨hn, -⟩
          obtain ⟨-, hf'⟩ :=
            (mem_newLinks_iff extract_code links existing hW hE l).mp hn
          rw [hf] at hf'
          exact Option.noConfusion hf'
        · rintro ⟨⟨o, hao⟩, o', hu', hc'⟩
          obtain ⟨-, hfo, -⟩ :=
            (mem_amendments_iff extract_code links existing hW hE l o).mp hao
          obtain ⟨l', hl', hf', hd'⟩ :=
            (mem_unchanged_iff extract_code links existing hW hE o').mp hu'
          have ho'c : o'.opportunity_code = extract_code l'.url :=
            (findByCode_some _ _ _ hf').2
          have : l' = l := List.inj_on_of_nodup_map hW hl' hl (by rw [← ho'c, hc'])
          subst this
          rw [hf] at hf'
          obtain rfl : o0 = o' := Option.some.inj hf'
          rw [hd'] at hd
          exact Bool.noConfusion hd
      | false =>
        refine ⟨Or.inr (Or.inr ⟨o0,
          (mem_unchanged_iff extract_code links existing hW hE o0).mpr
            ⟨l, hl, hf, hd⟩, (findByCode_some _ _ _ hf).2⟩), ?_, ?_, ?_⟩
        · rintro ⟨hn, -⟩
          obtain ⟨-, hf'⟩ :=
            (mem_newLinks_iff extract_code links existing hW hE l).mp hn
          rw [hf] at hf'
          exact Option.noConfusion hf'
        · rintro ⟨hn, -⟩
          obtain ⟨-, hf'⟩ :=
            (mem_newLinks_iff extract_code links existing hW hE l).mp hn
          rw [hf] at hf'
          exact Option.noConfusion hf'
        · rintro ⟨⟨o, hao⟩, -⟩
          obtain ⟨-, hfo, hdo⟩ :=
            (mem_amendments_iff extract_code links existing hW hE l o).mp hao
          rw [hf] at hfo
          obtain rfl : o0 = o := Option.some.inj hfo
          rw [hdo] at hd
          exact Bool.noConfusion hd
  · -- record side
    intro o ho
    cases hlink : findLinkBy (fun l => extract_code l.url) links o.opportunity_code with
    | none =>
      have hvan : ∀ l ∈ links, extract_code l.url ≠ o.opportunity_code :=
        (findLinkBy_eq_none_iff _ _ _).mp hlink
      refine ⟨Or.inr (Or.inr
        ((mem_removed_iff extract_code links existing hW hE o).mpr ⟨ho, hvan⟩)),
        ?_, ?_, ?_⟩
      · rintro ⟨⟨l, hao⟩, -⟩
        obtain ⟨hl, hf', -⟩ :=
          (mem_amendments_iff extract_code links existing hW hE l o).mp hao
        exact hvan l hl ((findByCode_some _ _ _ hf').2.symm)
      · rintro ⟨⟨l, hao⟩, -⟩
        obtain ⟨hl, hf', -⟩ :=
          (mem_amendments_iff extract_code links existing hW hE l o).mp hao
        exact hvan l hl ((findByCode_some _ _ _ hf').2.symm)
      · rintro ⟨hu, -⟩
        obtain ⟨l', hl', hf', -⟩ :=
          (mem_unchanged_iff extract_code links existing hW hE o).mp hu
        exact hvan l' hl' ((findByCode_some _ _ _ hf').2.symm)
    | some l0 =>
      obtain ⟨hl0, hk0⟩ := findLinkBy_some _ _ _ _ hlink
      have hf0 : findByCode existing (extract_code l0.url) = some o := by
        rw [hk0]
        exact findByCode_of_mem_nodup _ _ _ ho rfl hE
      have hnotvan : ¬ o ∈ (reconcile extract_code links existing).removed := by
        intro hr
        obtain ⟨-, hvan⟩ :=
          (mem_removed_iff extract_code links existing hW hE o).mp hr
        exact hvan l0 hl0 hk0
      cases hd : urls_differ_by_ending l0.url o.url with
      | true =>
        refine ⟨Or.inl ⟨l0,
          (mem_amendments_iff extract_code links existing hW hE l0 o).mpr
            ⟨hl0, hf0, hd⟩⟩, ?_, ?_, ?_⟩
        · rintro ⟨-, hu⟩
          obtain ⟨l', hl', hf', hd'⟩ :=
            (mem_unchanged_iff extract_code links existing hW hE o).mp hu
          have ho'c : o.opportunity_code = extract_code l'.url :=
            (findByCode_some _ _ _ hf').2
          have : l' = l0 := List.inj_on_of_nodup_map hW hl' hl0 (by rw [← ho'c, hk0])
          subst this
          rw [hd'] at hd
          exact Bool.noConfusion hd
        · rintro ⟨-, hr⟩
          exact hnotvan hr
        · rintro ⟨-, hr⟩
          exact hnotvan hr
      | false =>
        refine ⟨Or.inr (Or.inl
          ((mem_unchanged_iff extract_code links existing hW hE o).mpr
            ⟨l0, hl0, hf0, hd⟩)), ?_, ?_, ?_⟩
        · rintro ⟨⟨l', hao⟩, -⟩
          obtain ⟨hl', hf', hd'⟩ :=
            (mem_amendments_iff extract_code links existing hW hE l' o).mp hao
          have ho'c : o.opportunity_code = extract_code l'.url :=
            (findByCode_some _ _ _ hf').2
          have : l' = l0 := List.inj_on_of_nodup_map hW hl' hl0 (by rw [← ho'c, hk0])
          subst this
          rw [hd'] at hd
          exact Bool.noConfusion hd
        · rintro ⟨-, hr⟩
          exact hnotvan hr
        · rintro ⟨-, hr⟩
          exact hnotvan hr

/-- C1 witness: on a one-link, one-record instance with a changed URL ending,
the discovered link is classified as an amendment pair with the stored
record. -/
theorem c1_reconcile_partition_witness :
    (Link.mk "https://x/c1-amendment-1/",
      ({ opportunity_code := "c1", url := "https://x/c1/" } : Opportunity))
      ∈ (reconcile (fun _ => "c1") [Link.mk "https://x/c1-amendment-1/"]
          [{ opportunity_code := "c1", url := "https://x/c1/" }]).amendments :=
  ((c1_reconcile_partition (fun _ => "c1") [Link.mk "https://x/c1-amendment-1/"]
      [{ opportunity_code := "c1", url := "https://x/c1/" }]
      (by decide) (by decide)).2.2.2.1
    (Link.mk "https://x/c1-amendment-1/")
    { opportunity_code := "c1", url := "https://x/c1/" }).mpr
    ⟨by decide, by decide, by decide⟩

/-- C2: For every (existing record, link) pair classified as amendment,
applying the Amendment Applier increases `amendment_count` by exactly 1, sets
`has_amendments` to true, and sets `last_amendment_at` to the run's
processing timestamp. -/
theorem c2_amendment_applier (extract_code : String → String)
    (links : List Link) (existing : List Opportunity) (now : Int)
    (ext : Extracted) (l : Link) (o : Opportunity)
    (hmem : (l, o) ∈ (reconcile extract_code links existing).amendments) :
    (applyAmendment now l.url ext o).amendment_count = o.amendment_count + 1
    ∧ (applyAmendment now l.url ext o).has_amendments = true
    ∧ (applyAmendment now l.url ext o).last_amendment_at = some now := by
  have hd : urls_differ_by_ending l.url o.url = true :=
    amendments_differ extract_code links existing l o hmem
  have hne : o.url ≠ l.url := (ne_of_urls_differ _ _ hd).symm
  refine ⟨?_, ?_, ?_⟩ <;> simp [applyAmendment, hne]

/-- C2 witness: a concrete amendment pair gets its counter bumped from 0
to 1, the flag set, and the timestamp stamped. -/
theorem c2_amendment_applier_witness :
    (applyAmendment 7 (Link.mk "https://x/c1-amendment-1/").url {}
        { opportunity_code := "c1", url := "https://x/c1/" }).amendment_count
      = ({ opportunity_code := "c1", url := "https://x/c1/" } :
          Opportunity).amendment_count + 1
    ∧ (applyAmendment 7 (Link.mk "https://x/c1-amendment-1/").url {}
        { opportunity_code := "c1", url := "https://x/c1/" }).has_amendments = true
    ∧ (applyAmendment 7 (Link.mk "https://x/c1-amendment-1/").url {}
        { opportunity_code := "c1", url := "https://x/c1/" }).last_amendment_at
      = some 7 :=
  c2_amendment_applier (fun _ => "c1") [Link.mk "https://x/c1-amendment-1/"]
    [{ opportunity_code := "c1", url := "https://x/c1/" }] 7 {}
    (Link.mk "https://x/c1-amendment-1/")
    { opportunity_code := "c1", url := "https://x/c1/" } (by decide)

/-- The selection predicate of the retirement sweeper, spelled out as a
proposition. -/
theorem retirementDue_iff (now : Int) (o : Opportunity) :
    retirementDue now o = true
      ↔ o.is_active = true
          ∧ ∃ d, o.bid_closing_date_parsed = some d ∧ d < now := by
  cases hp : o.bid_closing_date_parsed with
  | none => simp [retirementDue, hp]
  | some d => simp [retirementDue, hp]

/-- C3: The Retirement Sweeper sets `is_active = false` on exactly those
records that are active with a non-null parsed closing date lying strictly
before `now`, leaves every other record untouched, returns the count of
records retired, and never changes `is_active` of a record whose parsed
closing date is null. -/
theorem c3_retirement_sweeper (now : Int) (recs : List Opportunity) :
    (deactivate_past_due now recs).1.length = recs.length
    ∧ (∀ (i : Nat) (h1 : i < recs.length)
        (h2 : i < (deactivate_past_due now recs).1.length),
        ((recs[i].is_active = true
            ∧ ∃ d, recs[i].bid_closing_date_parsed = some d ∧ d < now) →
          (deactivate_past_due now recs).1[i] = { recs[i] with is_active := false })
        ∧ (¬(recs[i].is_active = true
            ∧ ∃ d, recs[i].bid_closing_date_parsed = some d ∧ d < now) →
          (deactivate_past_due now recs).1[i] = recs[i])
        ∧ (recs[i].bid_closing_date_parsed = none →
          ((deactivate_past_due now recs).1[i]).is_active = recs[i].is_active))
    ∧ (deactivate_past_due now recs).2
      = recs.countP (fun o => o.is_active &&
          (match o.bid_closing_date_parsed with
           | some d => decide (d < now)
           | none => false)) := by
  refine ⟨by simp [deactivate_past_due], ?_, ?_⟩
  · intro i h1 h2
    have hget : (deactivate_past_due now recs).1[i]
        = if retirementDue now recs[i] then { recs[i] with is_active := false }
          else recs[i] := by
      simp [deactivate_past_due]
    refine ⟨?_, ?_, ?_⟩
    · intro hc
      rw [hget, if_pos ((retirementDue_iff now recs[i]).mpr hc)]
    · intro hc
      rw [hget, if_neg (fun h => hc ((retirementDue_iff now recs[i]).mp h))]
    · intro hnull
      have hfalse : retirementDue now recs[i] = false := by
        simp [retirementDue, hnull]
      rw [hget, if_neg (by rw [hfalse]; exact Bool.noConfusion)]
  · rw [List.countP_eq_length_filter]
    rfl

/-- C3 witness: on a two-record store — one past-due active record and one
active record with a null parsed date — the first is retired, the second is
untouched, and the retired count is 1. -/
theorem c3_retirement_sweeper_witness :
    (deactivate_past_due 10
        [{ opportunity_code := "a", url := "u", bid_closing_date_parsed := some 3 },
         { opportunity_code := "b", url := "v" }]).1.length = 2
    ∧ (deactivate_past_due 10
        [{ opportunity_code := "a", url := "u", bid_closing_date_parsed := some 3 },
         { opportunity_code := "b", url := "v" }]).1.get ⟨0, by decide⟩
      = { opportunity_code := "a", url := "u", bid_closing_date_parsed := some 3,
          is_active := false }
    ∧ (deactivate_past_due 10
        [{ opportunity_code := "a", url := "u", bid_closing_date_parsed := some 3 },
         { opportunity_code := "b", url := "v" }]).1.get ⟨1, by decide⟩
      = { opportunity_code := "b", url := "v" } := by
  have h := c3_retirement_sweeper 10
    [{ opportunity_code := "a", url := "u", bid_closing_date_parsed := some 3 },
     { opportunity_code := "b", url := "v" }]
  refine ⟨h.1, ?_, ?_⟩
  · have := ((h.2.1 0 (by decide) (by decide)).1 (by decide))
    simpa using this
  · have := ((h.2.1 1 (by decide) (by decide)).2.1 (by decide))
    simpa using this

/-- C4: For an existing record rediscovered with an unchanged URL ending
(classified unchanged), the processing phase leaves every field except
`last_checked_at` at its previous value: the record present after processing
is exactly the old record with `last_checked_at` refreshed. -/
theorem c4_unchanged_frame (extract_code : String → String)
    (extractE : String → Extracted) (now : Int) (links : List Link)
    (existing : List Opportunity)
    (hW : (links.map fun l => extract_code l.url).Nodup)
    (hE : (existing.map Opportunity.opportunity_code).Nodup)
    (l : Link) (o : Opportunity) (hl : l ∈ links)
    (hf : findByCode existing (extract_code l.url) = some o)
    (hd : urls_differ_by_ending l.url o.url = false) :
    ({ o with last_checked_at := some now })
        ∈ processPhase extract_code extractE now links existing
    ∧ (processUnchanged now o).opportunity_code = o.opportunity_code
    ∧ (processUnchanged now o).url = o.url
    ∧ (processUnchanged now o).amendment_count = o.amendment_count
    ∧ (processUnchanged now o).has_amendments = o.has_amendments
    ∧ (processUnchanged now o).last_amendment_at = o.last_amendment_at
    ∧ (processUnchanged now o).update_count = o.update_count
    ∧ (processUnchanged now o).last_changed_fields = o.last_changed_fields
    ∧ (processUnchanged now o).is_active = o.is_active
    ∧ (processUnchanged now o).bid_closing_date = o.bid_closing_date
    ∧ (processUnchanged now o).bid_closing_date_parsed = o.bid_closing_date_parsed
    ∧ (processUnchanged now o).fields = o.fields
    ∧ (processUnchanged now o).last_checked_at = some now := by
  refine ⟨?_, rfl, rfl, rfl, rfl, rfl, rfl, rfl, rfl, rfl, rfl, rfl, rfl⟩
  have hmemo : o ∈ existing := (findByCode_some _ _ _ hf).1
  have hupd : updateExisting (reconcile extract_code links existing) extractE now o
      = processUnchanged now o :=
    updateExisting_of_unchanged extract_code extractE now links existing
      hW hE l o hl hf hd
  simp only [processPhase]
  have hmem2 : updateExisting (reconcile extract_code links existing) extractE now o
      ∈ existing.map (updateExisting (reconcile extract_code links existing) extractE now) :=
    List.mem_map_of_mem _ hmemo
  rw [hupd] at hmem2
  exact List.mem_append_left _ hmem2

/-- C4 witness: a rediscovered link with the same ending (different prefix)
leaves the stored record intact apart from `last_checked_at`. -/
theorem c4_unchanged_frame_witness :
    ({ opportunity_code := "c1", url := "https://x/c1/",
        amendment_count := 2, last_checked_at := some 9 } : Opportunity)
      ∈ processPhase (fun _ => "c1") (fun _ => {}) 9 [Link.mk "https://y/c1/"]
          [{ opportunity_code := "c1", url := "https://x/c1/",
             amendment_count := 2 }] := by
  have h := c4_unchanged_frame (fun _ => "c1") (fun _ => {}) 9
    [Link.mk "https://y/c1/"]
    [{ opportunity_code := "c1", url := "https://x/c1/", amendment_count := 2 }]
    (by decide) (by decide) (Link.mk "https://y/c1/")
    { opportunity_code := "c1", url := "https://x/c1/", amendment_count := 2 }
    (by decide) (by decide) (by decide)
  exact h.1

/-- Modelled from the spec (for comparison with the code): the set of field
names whose value actually changed in this update — each extracted field
whose new value differs from the stored one, plus `"url"` when the URL
ending differed.  Per the spec this is what `last_changed_fields` should be
assigned (replacing the prior set). -/
def spec_changed_field_names (o : Opportunity) (new_url : String)
    (ext : Extracted) : List String :=
  (ext.fields.filter (fun p => lookupAssoc o.fields p.1 ≠ some p.2)).map (fun p => p.1)
    ++ (if urls_differ_by_ending new_url o.url then ["url"] else [])

/-- C5 counterexample: a record whose prior `last_changed_fields` is
`["title"]` receives an amendment in which only the URL changed (the
extracted content is identical), so the set of names that actually changed
is exactly `["url"]`; the code instead appends, producing
`["title", "url"]` — the prior set is retained, not replaced. -/
theorem c5_counterexample :
    urls_differ_by_ending "https://x/c1-amendment-1/"
      ({ opportunity_code := "c1", url := "https://x/c1/",
          last_changed_fields := ["title"],
          fields := [("title", "t")] } : Opportunity).url = true
    ∧ spec_changed_field_names
        { opportunity_code := "c1", url := "https://x/c1/",
          last_changed_fields := ["title"], fields := [("title", "t")] }
        "https://x/c1-amendment-1/" { fields := [("title", "t")] }
      = ["url"]
    ∧ (applyAmendment 7 "https://x/c1-amendment-1/" { fields := [("title", "t")] }
        { opportunity_code := "c1", url := "https://x/c1/",
          last_changed_fields := ["title"],
          fields := [("title", "t")] }).last_changed_fields
      = ["title", "url"]
    ∧ (applyAmendment 7 "https://x/c1-amendment-1/" { fields := [("title", "t")] }
        { opportunity_code := "c1", url := "https://x/c1/",
          last_changed_fields := ["title"],
          fields := [("title", "t")] }).last_changed_fields
      ≠ spec_changed_field_names
          { opportunity_code := "c1", url := "https://x/c1/",
            last_changed_fields := ["title"], fields := [("title", "t")] }
          "https://x/c1-amendment-1/" { fields := [("title", "t")] } := by
  refine ⟨by decide, by decide, by decide, by decide⟩

/-- C5 amended: when the Amendment Applier processes an amendment whose URL
ending differed, it appends `"url"` to `last_changed_fields` when not
already present and keeps every prior entry — the prior set is retained
(appended to), not replaced, and no other changed field name is recomputed. -/
theorem c5_amended_changed_fields (now : Int) (new_url : String)
    (ext : Extracted) (o : Opportunity)
    (hd : urls_differ_by_ending new_url o.url = true) :
    "url" ∈ (applyAmendment now new_url ext o).last_changed_fields
    ∧ (∀ f ∈ o.last_changed_fields,
        f ∈ (applyAmendment now new_url ext o).last_changed_fields)
    ∧ (applyAmendment now new_url ext o).last_changed_fields
      = (if "url" ∈ o.last_changed_fields then o.last_changed_fields
         else o.last_changed_fields ++ ["url"]) := by
  have hne : o.url ≠ new_url := ne_of_urls_differ _ _ hd |>.symm
  have hlcf : (applyAmendment now new_url ext o).last_changed_fields
      = (if "url" ∈ o.last_changed_fields then o.last_changed_fields
         else o.last_changed_fields ++ ["url"]) := by
    simp [applyAmendment, hne]
  refine ⟨?_, ?_, hlcf⟩
  · rw [hlcf]
    by_cases hin : "url" ∈ o.last_changed_fields
    · rw [if_pos hin]; exact hin
    · rw [if_neg hin]; exact List.mem_append_right _ (by simp)
  · intro f hfmem
    rw [hlcf]
    by_cases hin : "url" ∈ o.last_changed_fields
    · rw [if_pos hin]; exact hfmem
    · rw [if_neg hin]; exact List.mem_append_left _ hfmem

/-- C5 amended witness: the concrete amendment of the counterexample keeps
the prior entry `"title"` and gains `"url"`. -/
theorem c5_amended_changed_fields_witness :
    "url" ∈ (applyAmendment 7 "https://x/c1-amendment-1/"
        { fields := [("title", "t")] }
        { opportunity_code := "c1", url := "https://x/c1/",
          last_changed_fields := ["title"],
          fields := [("title", "t")] }).last_changed_fields
    ∧ (∀ f ∈ (["title"] : List String),
        f ∈ (applyAmendment 7 "https://x/c1-amendment-1/"
          { fields := [("title", "t")] }
          { opportunity_code := "c1", url := "https://x/c1/",
            last_changed_fields := ["title"],
            fields := [("title", "t")] }).last_changed_fields) :=
  ⟨(c5_amended_changed_fields 7 "https://x/c1-amendment-1/"
      { fields := [("title", "t")] }
      { opportunity_code := "c1", url := "https://x/c1/",
        last_changed_fields := ["title"], fields := [("title", "t")] }
      (by decide)).1,
   (c5_amended_changed_fields 7 "https://x/c1-amendment-1/"
      { fields := [("title", "t")] }
      { opportunity_code := "c1", url := "https://x/c1/",
        last_changed_fields := ["title"], fields := [("title", "t")] }
      (by decide)).2.1⟩

/-- C6: Running a reconciliation pass twice in a row against the same
unchanged source snapshot yields, on the second run, zero records classified
as new and zero records classified as amendment. -/
theorem c6_reconcile_idempotent (extract_code : String → String)
    (extractE : String → Extracted) (now : Int) (links : List Link)
    (existing : List Opportunity)
    (hW : (links.map fun l => extract_code l.url).Nodup)
    (hE : (existing.map Opportunity.opportunity_code).Nodup) :
    (reconcile extract_code links
        (processPhase extract_code extractE now links existing)).newLinks = []
    ∧ (reconcile extract_code links
        (processPhase extract_code extractE now links existing)).amendments = [] := by
  have hE1 := processPhase_codes_nodup extract_code extractE now links existing hW hE
  constructor
  · rw [reconcile_newLinks extract_code links _ hW hE1, List.filter_eq_nil_iff]
    intro l hl
    obtain ⟨o', ho', -⟩ :=
      processPhase_rediscovery extract_code extractE now links existing hW hE l hl
    simp [ho']
  · rw [reconcile_amendments extract_code links _ hW hE1, List.filterMap_eq_nil_iff]
    intro l hl
    obtain ⟨o', ho', hend⟩ :=
      processPhase_rediscovery extract_code extractE now links existing hW hE l hl
    have hfalse : urls_differ_by_ending l.url o'.url = false :=
      (urls_differ_false_iff _ _).mpr hend.symm
    simp [ho', hfalse]

/-- C6 witness: rediscovering an amended link right after the pass that
applied the amendment produces no new records and no amendments. -/
theorem c6_reconcile_idempotent_witness :
    (reconcile (fun _ => "c1") [Link.mk "https://x/c1-amendment-1/"]
        (processPhase (fun _ => "c1") (fun _ => {}) 5
          [Link.mk "https://x/c1-amendment-1/"]
          [{ opportunity_code := "c1", url := "https://x/c1/" }])).newLinks = []
    ∧ (reconcile (fun _ => "c1") [Link.mk "https://x/c1-amendment-1/"]
        (processPhase (fun _ => "c1") (fun _ => {}) 5
          [Link.mk "https://x/c1-amendment-1/"]
          [{ opportunity_code := "c1", url := "https://x/c1/" }])).amendments = [] :=
  c6_reconcile_idempotent (fun _ => "c1") (fun _ => {}) 5
    [Link.mk "https://x/c1-amendment-1/"]
    [{ opportunity_code := "c1", url := "https://x/c1/" }]
    (by decide) (by decide)

/-- C7: A record classified as vanished (its code absent from the discovery
set) passes through the processing phase untouched — it is neither deleted
nor modified — and, unless its own closing date has passed, the full
incremental run leaves it present with `is_active` unchanged: disappearance
from the source alone never retires a record. -/
theorem c7_vanished_frame (extract_code : String → String)
    (extractE : String → Extracted) (now : Int) (links : List Link)
    (existing : List Opportunity)
    (hW : (links.map fun l => extract_code l.url).Nodup)
    (hE : (existing.map Opportunity.opportunity_code).Nodup)
    (o : Opportunity)
    (ho : o ∈ (reconcile extract_code links existing).removed) :
    o ∈ processPhase extract_code extractE now links existing
    ∧ (retirementDue now o = false →
        o ∈ (scrape_all extract_code extractE now "incremental" links
              existing).records) := by
  obtain ⟨hex, hvan⟩ := (mem_removed_iff extract_code links existing hW hE o).mp ho
  have hupd : updateExisting (reconcile extract_code links existing) extractE now o
      = o :=
    updateExisting_of_vanished extract_code extractE now links existing hW hE o hvan
  have hmem : o ∈ processPhase extract_code extractE now links existing := by
    simp only [processPhase]
    have hmem2 : updateExisting (reconcile extract_code links existing) extractE now o
        ∈ existing.map
            (updateExisting (reconcile extract_code links existing) extractE now) :=
      List.mem_map_of_mem _ hex
    rw [hupd] at hmem2
    exact List.mem_append_left _ hmem2
  refine ⟨hmem, fun hret => ?_⟩
  simp only [scrape_all, if_pos rfl, deactivate_past_due]
  have hid : (fun o' => if retirementDue now o' then { o' with is_active := false }
      else o') o = o := by simp [hret]
  exact hid ▸ List.mem_map_of_mem _ hmem

/-- C7 witness: a stored record whose code is not among today's links — and
whose closing date has not passed — survives the whole incremental run
unchanged, `is_active` included. -/
theorem c7_vanished_frame_witness :
    ({ opportunity_code := "gone", url := "https://x/gone/",
        bid_closing_date_parsed := some 99 } : Opportunity)
      ∈ (scrape_all (fun u => extract_url_ending u) (fun _ => {}) 5 "incremental"
          [Link.mk "https://x/other/"]
          [{ opportunity_code := "gone", url := "https://x/gone/",
             bid_closing_date_parsed := some 99 }]).records :=
  (c7_vanished_frame (fun u => extract_url_ending u) (fun _ => {}) 5
    [Link.mk "https://x/other/"]
    [{ opportunity_code := "gone", url := "https://x/gone/",
       bid_closing_date_parsed := some 99 }]
    (by decide) (by decide)
    { opportunity_code := "gone", url := "https://x/gone/",
      bid_closing_date_parsed := some 99 }
    (by decide)).2 (by decide)

/-- C8: In both incremental and full modes the retirement sweep runs exactly
once, at the end of the run: the run's final record set is precisely the
sweep applied to the post-processing state (so the sweep sees every
per-item update), the reported `deactivated_count` is the sweep's count, and
every post-processing record the sweep retires appears retired in the run's
final output — no later step of the run sets `is_active` back to true. -/
theorem c8_sweeper_runs_last (extract_code : String → String)
    (extractE : String → Extracted) (now : Int) (links : List Link)
    (existing : List Opportunity) (mode : String)
    (hmode : mode = "incremental" ∨ mode = "full") :
    (scrape_all extract_code extractE now mode links existing).records
      = (deactivate_past_due now
          (if mode = "incremental"
           then processPhase extract_code extractE now links existing
           else fullProcess extract_code extractE now links existing)).1
    ∧ (scrape_all extract_code extractE now mode links existing).deactivated_count
      = (deactivate_past_due now
          (if mode = "incremental"
           then processPhase extract_code extractE now links existing
           else fullProcess extract_code extractE now links existing)).2
    ∧ (scrape_all extract_code extractE now mode links existing).records.length
      = (if mode = "incremental"
         then processPhase extract_code extractE now links existing
         else fullProcess extract_code extractE now links existing).length
    ∧ ∀ o ∈ (if mode = "incremental"
          then processPhase extract_code extractE now links existing
          else fullProcess extract_code extractE now links existing),
        retirementDue now o = true →
        ({ o with is_active := false })
          ∈ (scrape_all extract_code extractE now mode links existing).records := by
  refine ⟨rfl, rfl, by simp [scrape_all, deactivate_past_due], ?_⟩
  intro o hom hr
  have hval : (fun o' => if retirementDue now o' then { o' with is_active := false }
      else o') o = { o with is_active := false } := by simp [hr]
  exact hval ▸ List.mem_map_of_mem _ hom

/-- C8 witness: a full-mode run over an empty discovery set retires a stored
past-due record, and the retired form is what the run returns. -/
theorem c8_sweeper_runs_last_witness :
    ({ opportunity_code := "a", url := "u", bid_closing_date_parsed := some 3,
        is_active := false } : Opportunity)
      ∈ (scrape_all (fun _ => "c") (fun _ => {}) 10 "full" []
          [{ opportunity_code := "a", url := "u",
             bid_closing_date_parsed := some 3 }]).records :=
  (c8_sweeper_runs_last (fun _ => "c") (fun _ => {}) 10 []
    [{ opportunity_code := "a", url := "u", bid_closing_date_parsed := some 3 }]
    "full" (Or.inr rfl)).2.2.2
    { opportunity_code := "a", url := "u", bid_closing_date_parsed := some 3 }
    (by decide) (by decide)

/-- C9: For every invocation of the job entry point with a valid mode, the
run's aggregated result is returned as a value (the job function's output is
captured, never thrown away), and the process exit code is zero exactly when
the result's success flag is true. -/
theorem c9_job_entry (run_job_sync : String → JobResult) (mode : String)
    (hmode : mode = "incremental" ∨ mode = "full") :
    (mainRun run_job_sync [mode]).1 = some (run_job_sync mode)
    ∧ ((mainRun run_job_sync [mode]).2 = 0
        ↔ (run_job_sync mode).success = true) := by
  constructor
  · simp [mainRun, if_pos hmode]
  · simp only [mainRun, if_pos hmode]
    cases h : (run_job_sync mode).success <;> simp [h]

/-- C9 witness: a successful full-mode run exits 0 with the result value
captured. -/
theorem c9_job_entry_witness :
    (mainRun (fun _ => ({ success := true } : JobResult)) ["full"]).1
      = some { success := true }
    ∧ ((mainRun (fun _ => ({ success := true } : JobResult)) ["full"]).2 = 0
        ↔ ({ success := true } : JobResult).success = true) :=
  c9_job_entry (fun _ => { success := true }) "full" (Or.inr rfl)

/-- C10: With no command-line argument the job entry point defaults to mode
"incremental"; with an argument outside {incremental, full} it exits with
code 1 without invoking the scraper job at all (no result is produced, and
the outcome does not depend on the job function). -/
theorem c10_default_and_invalid_mode (run_job_sync run_job_sync2 : String → JobResult)
    (arg : String) (rest : List String)
    (h1 : arg ≠ "incremental") (h2 : arg ≠ "full") :
    mainRun run_job_sync (arg :: rest) = (none, 1)
    ∧ mainRun run_job_sync (arg :: rest) = mainRun run_job_sync2 (arg :: rest)
    ∧ (mainRun run_job_sync []).1 = some (run_job_sync "incremental")
    ∧ ((mainRun run_job_sync []).2 = 0
        ↔ (run_job_sync "incremental").success = true) := by
  have hcond : ¬(arg = "incremental" ∨ arg = "full") := by
    rintro (h | h)
    exacts [h1 h, h2 h]
  refine ⟨by simp [mainRun, hcond], by simp [mainRun, hcond], rfl, ?_⟩
  cases h : (run_job_sync "incremental").success <;> simp [mainRun, h]

/-- C10 witness: the argument "bogus" yields exit code 1 with no job
invocation, independently of what the job would have returned, and the
no-argument invocation runs the job in incremental mode. -/
theorem c10_default_and_invalid_mode_witness :
    mainRun (fun _ => ({ success := false } : JobResult)) ["bogus"] = (none, 1)
    ∧ mainRun (fun _ => ({ success := false } : JobResult)) ["bogus"]
      = mainRun (fun _ => ({ success := true } : JobResult)) ["bogus"]
    ∧ (mainRun (fun _ => ({ success := false } : JobResult)) []).1
      = some { success := false }
    ∧ ((mainRun (fun _ => ({ success := false } : JobResult)) []).2 = 0
        ↔ ({ success := false } : JobResult).success = true) :=
  c10_default_and_invalid_mode (fun _ => { success := false })
    (fun _ => { success := true }) "bogus" [] (by decide) (by decide)

end NatoScraper
